import Mathlib

/-!
# Verification of the Merkle-tree stale-keys repair task

Shallow embedding of `core/lib/merkle_tree/src/tasks.rs` (the
`StaleKeysRepairTask`): single-version stale-key classification
(`run_for_version`), the batched repair step (`step` / `update_task_data`)
and the main loop (`run`).

The persistent store (`RocksDBWrapper`) is visible in the source only
through the interface the task consumes (`all_keys_for_version`,
`stale_keys`, `min_stale_key_version`, `manifest`, `stale_keys_repair_data`,
`repair_stale_keys`); it is embedded as a functional state.  Stale-key
records are a list of `StaleNodeKey` entries; `min_stale_key_version` is the
minimum recorded version, and `repair_stale_keys` (whose implementation is
not part of the sources at hand) is modelled from the spec as the atomic
removal of the given records together with persisting the new cursor.

Machine integers (`u64`) are embedded as `Nat`; overflow is irrelevant for
the properties at hand.  Fallible store reads return `Except`.
-/

namespace StaleKeysRepair

/-- Store I/O errors (`anyhow::Error` on the Rust side); the payload is an
opaque message. -/
abbrev StoreErr := String

/-- `NodeKey`: identifies one trie node by `(version, nibble path)`.
Nibble paths are embedded as lists of naturals. -/
structure NodeKey where
  version : Nat
  nibbles : List Nat
  deriving DecidableEq, Repr

/-- `StaleNodeKey`: a node key together with the version at which the node
was replaced (`StaleNodeKey::new(key, version)`). -/
structure StaleNodeKey where
  key : NodeKey
  replaced_in_version : Nat
  deriving DecidableEq, Repr

/-- `VersionKeySets` returned by `all_keys_for_version`: paths of nodes that
are part of the live tree shape for the version, and paths touched in the
version but unreachable from any live shape. -/
structure VersionKeySets where
  valid_keys : List (List Nat)
  unreachable_keys : List (List Nat)
  deriving DecidableEq, Repr

/-- Tree manifest: only the `version_count` field is consumed by the task. -/
structure Manifest where
  version_count : Nat
  deriving DecidableEq, Repr

/-- `StaleKeysRepairData`: the persisted repair cursor. -/
structure StaleKeysRepairData where
  next_version : Nat
  deriving DecidableEq, Repr

/-- The store state, as seen through the interface the repair task consumes.
`staleRecords` is the stale-key index (each record tagged with the version it
became stale at); `repair_data` the persisted cursor; `all_keys_for_version`
a fallible per-version read of the key sets. -/
structure RocksDBWrapper where
  staleRecords : List StaleNodeKey
  repair_data : Option StaleKeysRepairData
  manifest : Option Manifest
  all_keys_for_version : Nat → Except StoreErr VersionKeySets

/-- `db.stale_keys(version)`: node keys of the stale records tagged with
`version` in the stale-key index. -/
def stale_keys (db : RocksDBWrapper) (version : Nat) : List NodeKey :=
  (db.staleRecords.filter (fun r => r.replaced_in_version = version)).map
    (fun r => r.key)

/-- `db.min_stale_key_version()`: the minimum version having a stale-key
record (the first key of the stale-keys column family). -/
def min_stale_key_version (db : RocksDBWrapper) : Option Nat :=
  (db.staleRecords.map (fun r => r.replaced_in_version)).min?

/-- The task computes `latest_version` as
`manifest().and_then(|m| m.version_count.checked_sub(1))`. -/
def latest_version (db : RocksDBWrapper) : Option Nat :=
  match db.manifest with
  | none => none
  | some m => if m.version_count = 0 then none else some (m.version_count - 1)

/-- Modelled from the spec: `repair_stale_keys(new_data, removed_keys)` (the
store-side write invoked by `update_task_data`, not part of the sources at
hand) atomically removes the given records from the stale-key index and
persists the new cursor; removing absent keys is a no-op. -/
def repair_stale_keys (db : RocksDBWrapper) (new_data : StaleKeysRepairData)
    (removed_keys : List StaleNodeKey) : RocksDBWrapper :=
  { db with
    staleRecords := db.staleRecords.filter (fun r => ¬ removed_keys.contains r)
    repair_data := some new_data }

/-- The classification branch of `run_for_version`: a stale key with path in
`valid_keys` is legitimate; one with path in `unreachable_keys` is
explainable bogus; any other is unexplained bogus.  Returns `true` iff the
key is kept as bogus. -/
def bogusFilter (version_keys : VersionKeySets) (stale_key : NodeKey) : Bool :=
  if version_keys.valid_keys.contains stale_key.nibbles then
    false
  else if version_keys.unreachable_keys.contains stale_key.nibbles then
    true
  else
    true

/-- `StaleKeysRepairTask::run_for_version`: loads the version's key sets and
stale keys, and returns the stale keys classified as bogus. -/
def run_for_version (db : RocksDBWrapper) (version : Nat) :
    Except StoreErr (List NodeKey) :=
  match db.all_keys_for_version version with
  | .error e => .error e
  | .ok version_keys =>
      .ok ((stale_keys db version).filter (bogusFilter version_keys))

/-- One atomic store write performed by `update_task_data`: the new cursor
and the records to remove. -/
structure RepairWrite where
  new_data : StaleKeysRepairData
  removed_keys : List StaleNodeKey
  deriving DecidableEq, Repr

/-- The fold over `versions` inside `step`: runs `run_for_version` for `n`
consecutive versions starting at `start_version`, tags each returned key
with its version, and concatenates the results, failing fast on the first
error. -/
def collect_stale_keys (db : RocksDBWrapper) (start_version : Nat) :
    Nat → Except StoreErr (List StaleNodeKey)
  | 0 => .ok []
  | n + 1 =>
    match run_for_version db start_version with
    | .error e => .error e
    | .ok output =>
      match collect_stale_keys db (start_version + 1) n with
      | .error e => .error e
      | .ok rest => .ok (output.map (fun key => ⟨key, start_version⟩) ++ rest)

/-- The start version `step` derives from the cursor and the minimum stale
version: `None` when no version has stale records, otherwise the cursor's
`next_version.max(min_stale_key_version)` (or the minimum alone when no
cursor is persisted). -/
def start_version_of (db : RocksDBWrapper) : Option Nat :=
  match db.repair_data, min_stale_key_version db with
  | _, none => none
  | none, some version => some version
  | some data, some version => some (max data.next_version version)

/-- `StaleKeysRepairTask::step`, with the store writes it performs made
explicit: returns the progress flag (or the propagated store error) together
with the list of `repair_stale_keys` writes issued (at most one, issued only
after every version in the batch classified successfully).  The cursor/
minimum-stale-version match of the source is factored into
`start_version_of`, and `manifest().and_then(checked_sub 1)` into
`latest_version`. -/
def step (parallelism : Nat) (db : RocksDBWrapper) :
    Except StoreErr Bool × List RepairWrite :=
  match start_version_of db with
  | none => (.ok false, [])
  | some start_version =>
    match latest_version db with
    | none => (.ok false, [])
    | some latest =>
      let end_version := min (start_version + parallelism - 1) latest
      if end_version < start_version then
        (.ok false, [])
      else
        match collect_stale_keys db start_version
            (end_version + 1 - start_version) with
        | .error e => (.error e, [])
        | .ok keys => (.ok true, [⟨⟨end_version + 1⟩, keys⟩])

/-- `step` together with the effect of its writes on the store. -/
def stepApplied (parallelism : Nat) (db : RocksDBWrapper) :
    Except StoreErr Bool × RocksDBWrapper :=
  ((step parallelism db).1,
    (step parallelism db).2.foldl
      (fun d w => repair_stale_keys d w.new_data w.removed_keys) db)

/-- The store state after `n` successful steps; `none` when some step among
the first `n` fails. -/
def steps_to (parallelism : Nat) (db : RocksDBWrapper) : Nat → Option RocksDBWrapper
  | 0 => some db
  | n + 1 =>
    match steps_to parallelism db n with
    | none => none
    | some d =>
      match stepApplied parallelism d with
      | (.error _, _) => none
      | (.ok _, d') => some d'

/-- `StaleKeysRepairTask::run`, embedded as a fuel-indexed trace.  `abort i`
tells whether `wait_for_abort` observes the stop signal at the wait
preceding step `i` (the only suspension and cancellation point).  The result
is `none` while the loop is still running after `fuel` iterations, and
otherwise the outcome (final store on cancellation, or the propagated step
error) together with the iteration index at which `run` returned. -/
def run (parallelism : Nat) (abort : Nat → Bool) (db : RocksDBWrapper) :
    Nat → Option (Except StoreErr RocksDBWrapper × Nat)
  | 0 => none
  | fuel + 1 =>
    if abort 0 then
      some (.ok db, 0)
    else
      match stepApplied parallelism db with
      | (.error e, _) => some (.error e, 0)
      | (.ok _, db') =>
        match run parallelism (fun i => abort (i + 1)) db' fuel with
        | none => none
        | some (res, n) => some (res, n + 1)

/-! ## Basic lemmas about the classifier -/

/-- The three-way classification branch keeps a stale key iff its path is
not among the valid keys (the `unreachable_keys` test only selects the
diagnostic message). -/
theorem bogusFilter_eq (version_keys : VersionKeySets) (stale_key : NodeKey) :
    bogusFilter version_keys stale_key
      = !(version_keys.valid_keys.contains stale_key.nibbles) := by
  unfold bogusFilter
  by_cases h : version_keys.valid_keys.contains stale_key.nibbles = true
  · simp [h]
  · simp only [Bool.not_eq_true] at h
    by_cases h2 : version_keys.unreachable_keys.contains stale_key.nibbles = true <;>
      simp [h, h2]

/-- On a successful key-set read, `run_for_version` returns exactly the
stale keys whose path is not in `valid_keys`. -/
theorem run_for_version_eq (db : RocksDBWrapper) (version : Nat)
    (vk : VersionKeySets) (hvk : db.all_keys_for_version version = .ok vk) :
    run_for_version db version
      = .ok ((stale_keys db version).filter
          (fun k => !(vk.valid_keys.contains k.nibbles))) := by
  unfold run_for_version
  rw [hvk]
  show Except.ok ((stale_keys db version).filter (bogusFilter vk)) = _
  congr 1
  exact List.filter_congr (fun k _ => bogusFilter_eq vk k)

/-! ## Witness store states -/

/-- Key sets for version 1 of the sample store: path `[1]` is valid, path
`[2]` unreachable. -/
def sampleVK : VersionKeySets := ⟨[[1]], [[2]]⟩

/-- A sample store: three stale records at version 1 (one valid, one
unreachable, one in neither set), two committed versions, no cursor. -/
def sampleDB : RocksDBWrapper where
  staleRecords := [⟨⟨0, [1]⟩, 1⟩, ⟨⟨0, [2]⟩, 1⟩, ⟨⟨0, [3]⟩, 1⟩]
  repair_data := none
  manifest := some ⟨2⟩
  all_keys_for_version := fun v => if v = 1 then .ok sampleVK else .ok ⟨[], []⟩

/-- A store whose key-set reads all fail, with an empty stale-key index. -/
def failingDB : RocksDBWrapper where
  staleRecords := []
  repair_data := none
  manifest := some ⟨1⟩
  all_keys_for_version := fun _ => .error "RocksDB read failed"

/-! ## C1: classifier partition correctness -/

/-- C1: for every version, given its key sets and the recorded stale keys,
`run_for_version` returns exactly the stale keys whose path is not in
`valid_keys`: a stale key with path in `valid_keys` is never returned, every
stale key with path in `unreachable_keys` or in neither set is returned, and
each input entry contributes at most one occurrence to the result. -/
theorem run_for_version_partition (db : RocksDBWrapper) (version : Nat)
    (vk : VersionKeySets) (hvk : db.all_keys_for_version version = .ok vk)
    (hdisj : ∀ p, p ∈ vk.valid_keys → p ∉ vk.unreachable_keys) :
    ∃ l, run_for_version db version = .ok l ∧
      l = (stale_keys db version).filter
            (fun k => !(vk.valid_keys.contains k.nibbles)) ∧
      (∀ k, k ∈ stale_keys db version → k.nibbles ∈ vk.valid_keys → k ∉ l) ∧
      (∀ k, k ∈ stale_keys db version →
        (k.nibbles ∈ vk.unreachable_keys ∨
          (k.nibbles ∉ vk.valid_keys ∧ k.nibbles ∉ vk.unreachable_keys)) →
        k ∈ l) ∧
      (∀ k, l.count k ≤ (stale_keys db version).count k) := by
  refine ⟨_, run_for_version_eq db version vk hvk, rfl, ?_, ?_, ?_⟩
  · intro k hk hvalid hmem
    rw [List.mem_filter] at hmem
    simp at hmem
    exact hmem.2 hvalid
  · intro k hk hcase
    rw [List.mem_filter]
    refine ⟨hk, ?_⟩
    have hnv : k.nibbles ∉ vk.valid_keys := by
      rcases hcase with h | ⟨h, _⟩
      · exact fun hv => hdisj _ hv h
      · exact h
    simpa using hnv
  · intro k
    exact (List.filter_sublist _).count_le k

/-- C1 witness: the partition theorem applied to the sample store at
version 1. -/
theorem run_for_version_partition_witness :
    sampleDB.all_keys_for_version 1 = .ok sampleVK ∧
    (∀ p, p ∈ sampleVK.valid_keys → p ∉ sampleVK.unreachable_keys) ∧
    ∃ l, run_for_version sampleDB 1 = .ok l ∧
      l = (stale_keys sampleDB 1).filter
            (fun k => !(sampleVK.valid_keys.contains k.nibbles)) ∧
      (∀ k, k ∈ stale_keys sampleDB 1 → k.nibbles ∈ sampleVK.valid_keys → k ∉ l) ∧
      (∀ k, k ∈ stale_keys sampleDB 1 →
        (k.nibbles ∈ sampleVK.unreachable_keys ∨
          (k.nibbles ∉ sampleVK.valid_keys ∧ k.nibbles ∉ sampleVK.unreachable_keys)) →
        k ∈ l) ∧
      (∀ k, l.count k ≤ (stale_keys sampleDB 1).count k) :=
  ⟨rfl, by decide, run_for_version_partition sampleDB 1 sampleVK rfl (by decide)⟩

/-! ## C7: empty-stale-list edge case (corrected) -/

/-- C7 counterexample: on a store whose key-set read fails, `run_for_version`
propagates the error even though the version has no recorded stale keys, so
classification does inspect (and require) the key-set read, contrary to the
claim that it succeeds with an empty result without reading the key sets. -/
theorem run_for_version_empty_stale_counterexample :
    stale_keys failingDB 0 = [] ∧
    run_for_version failingDB 0 = .error "RocksDB read failed" :=
  ⟨rfl, rfl⟩

/-- C7 amended: for every version whose recorded stale-key list is empty,
`run_for_version` returns the empty list whenever the key-set read succeeds,
whatever the key sets contain (the result does not depend on their values);
the key sets are nonetheless read, and a failing read propagates as an
error. -/
theorem run_for_version_empty_stale (db : RocksDBWrapper) (version : Nat)
    (vk : VersionKeySets) (hvk : db.all_keys_for_version version = .ok vk)
    (hstale : stale_keys db version = []) :
    run_for_version db version = .ok [] := by
  rw [run_for_version_eq db version vk hvk, hstale]
  rfl

/-- C7 witness: the amended theorem applied to the sample store at
version 0, whose stale-key list is empty. -/
theorem run_for_version_empty_stale_witness :
    sampleDB.all_keys_for_version 0 = .ok ⟨[], []⟩ ∧
    stale_keys sampleDB 0 = [] ∧
    run_for_version sampleDB 0 = .ok [] :=
  ⟨rfl, rfl, run_for_version_empty_stale sampleDB 0 ⟨[], []⟩ rfl rfl⟩

/-! ## Lemmas about the batched collection and `step` -/

/-- Tag a version's bogus keys with the version
(`StaleNodeKey::new(key, version)` inside `step`). -/
def tagged (B : Nat → List NodeKey) (v : Nat) : List StaleNodeKey :=
  (B v).map (fun key => ⟨key, v⟩)

/-- When every version in the window classifies successfully, the collection
fold returns the concatenation of the per-version bogus keys, each tagged
with its version. -/
theorem collect_stale_keys_eq (db : RocksDBWrapper) (B : Nat → List NodeKey) :
    ∀ (n s : Nat), (∀ v, s ≤ v → v < s + n → run_for_version db v = .ok (B v)) →
      collect_stale_keys db s n = .ok ((List.range' s n).flatMap (tagged B))
  | 0, s, _ => rfl
  | n + 1, s, h => by
    unfold collect_stale_keys
    rw [h s (le_refl s) (by omega),
      collect_stale_keys_eq db B n (s + 1) (fun v h1 h2 => h v (by omega) (by omega)),
      List.range'_succ]
    simp [tagged]

/-- If the key-set read fails at `v`, the first version of the window where
it does, the collection fold fails fast with that error. -/
theorem collect_stale_keys_error (db : RocksDBWrapper) (e : StoreErr) :
    ∀ (n s v : Nat), s ≤ v → v < s + n →
      db.all_keys_for_version v = .error e →
      (∀ w, s ≤ w → w < v → ∃ vk, db.all_keys_for_version w = .ok vk) →
      collect_stale_keys db s n = .error e
  | 0, s, v, h1, h2, _, _ => absurd h2 (by omega)
  | n + 1, s, v, h1, h2, herr, hbefore => by
    unfold collect_stale_keys
    rcases Nat.eq_or_lt_of_le h1 with rfl | hlt
    · unfold run_for_version
      rw [herr]
    · obtain ⟨vk, hvk⟩ := hbefore s (le_refl s) hlt
      rw [run_for_version_eq db s vk hvk,
        collect_stale_keys_error db e n (s + 1) v hlt (by omega) herr
          (fun w hw1 hw2 => hbefore w (by omega) hw2)]

/-- Every record produced by the collection fold is tagged with a version
inside the window. -/
theorem collect_stale_keys_versions (db : RocksDBWrapper) :
    ∀ (n s : Nat) (keys : List StaleNodeKey),
      collect_stale_keys db s n = .ok keys →
      ∀ r, r ∈ keys → s ≤ r.replaced_in_version ∧ r.replaced_in_version < s + n
  | 0, s, keys, h, r => by
    cases h
    intro hr
    cases hr
  | n + 1, s, keys, h, r => by
    intro hr
    unfold collect_stale_keys at h
    rcases hout : run_for_version db s with _ | output
    · rw [hout] at h; cases h
    · rw [hout] at h
      rcases hrest : collect_stale_keys db (s + 1) n with _ | rest
      · rw [hrest] at h; cases h
      · rw [hrest] at h
        cases h
        rcases List.mem_append.mp hr with hl | hl
        · obtain ⟨key, _, rfl⟩ := List.mem_map.mp hl
          refine ⟨le_refl s, ?_⟩
          show s < s + (n + 1)
          omega
        · have := collect_stale_keys_versions db n (s + 1) rest hrest r hl
          omega

/-- `step` with no stale records at all is a no-op. -/
theorem step_no_stale (par : Nat) (db : RocksDBWrapper)
    (h : start_version_of db = none) : step par db = (.ok false, []) := by
  unfold step
  rw [h]

/-- `step` with no committed versions is a no-op. -/
theorem step_no_latest (par : Nat) (db : RocksDBWrapper) (s : Nat)
    (hs : start_version_of db = some s) (h : latest_version db = none) :
    step par db = (.ok false, []) := by
  unfold step
  rw [hs, h]

/-- `step` with an empty version range (start past the latest version) is a
no-op. -/
theorem step_empty_range (par : Nat) (db : RocksDBWrapper) (s l : Nat)
    (hs : start_version_of db = some s) (hl : latest_version db = some l)
    (hls : l < s) : step par db = (.ok false, []) := by
  unfold step
  rw [hs, hl]
  have : min (s + par - 1) l < s := lt_of_le_of_lt (min_le_right _ _) hls
  simp only [this, if_true]

/-- On a non-empty version range, `step` reduces to the collection fold over
`[start, min (start + parallelism - 1) latest]` followed by the single
write. -/
theorem step_progress_eq (par : Nat) (db : RocksDBWrapper) (s l : Nat)
    (hs : start_version_of db = some s) (hl : latest_version db = some l)
    (hsl : s ≤ l) (hp : 1 ≤ par) :
    step par db =
      (match collect_stale_keys db s (min (s + par - 1) l + 1 - s) with
       | .error e => (.error e, [])
       | .ok keys => (.ok true, [⟨⟨min (s + par - 1) l + 1⟩, keys⟩])) := by
  unfold step
  rw [hs, hl]
  have hend : ¬ (min (s + par - 1) l < s) := by
    have h1 : s ≤ s + par - 1 := by omega
    exact not_lt.mpr (le_min h1 hsl)
  simp only [hend, if_false]

/-- `latest_version db = some l` holds exactly when the manifest is present
with a positive `version_count`, and then `l = version_count - 1`. -/
theorem latest_version_inv (db : RocksDBWrapper) (l : Nat)
    (h : latest_version db = some l) :
    ∃ m, db.manifest = some m ∧ 1 ≤ m.version_count ∧ l = m.version_count - 1 := by
  unfold latest_version at h
  rcases hm : db.manifest with _ | m <;> rw [hm] at h
  · simp at h
  · dsimp only at h
    by_cases h0 : m.version_count = 0
    · rw [if_pos h0] at h
      simp at h
    · rw [if_neg h0] at h
      exact ⟨m, rfl, by omega, (Option.some_injective _ h).symm⟩

/-- The start version is at least the persisted cursor, when one exists. -/
theorem start_version_of_cursor (db : RocksDBWrapper) (s : Nat)
    (c : StaleKeysRepairData) (hs : start_version_of db = some s)
    (hc : db.repair_data = some c) : c.next_version ≤ s := by
  unfold start_version_of at hs
  rw [hc] at hs
  rcases hm : min_stale_key_version db with _ | mv <;> rw [hm] at hs
  · cases hs
  · cases hs
    exact le_max_left _ _

/-- The start version is at least the minimum stale-key version. -/
theorem start_version_of_min (db : RocksDBWrapper) (s mv : Nat)
    (hs : start_version_of db = some s)
    (hm : min_stale_key_version db = some mv) : mv ≤ s := by
  unfold start_version_of at hs
  rw [hm] at hs
  rcases hc : db.repair_data with _ | c <;> rw [hc] at hs <;> cases hs
  · exact le_refl _
  · exact le_max_right _ _

/-- The four possible shapes of a `step` outcome, with the conditions under
which each branch is taken. -/
theorem step_shape (par : Nat) (db : RocksDBWrapper) :
    ((start_version_of db = none ∨
        (∃ s, start_version_of db = some s ∧ latest_version db = none) ∨
        (∃ s l, start_version_of db = some s ∧ latest_version db = some l ∧
          min (s + par - 1) l < s)) ∧
      step par db = (.ok false, [])) ∨
    (∃ s l e, start_version_of db = some s ∧ latest_version db = some l ∧
      ¬ min (s + par - 1) l < s ∧
      collect_stale_keys db s (min (s + par - 1) l + 1 - s) = .error e ∧
      step par db = (.error e, [])) ∨
    (∃ s l keys, start_version_of db = some s ∧ latest_version db = some l ∧
      ¬ min (s + par - 1) l < s ∧
      collect_stale_keys db s (min (s + par - 1) l + 1 - s) = .ok keys ∧
      step par db = (.ok true, [⟨⟨min (s + par - 1) l + 1⟩, keys⟩])) := by
  rcases hs : start_version_of db with _ | s
  · exact Or.inl ⟨Or.inl rfl, step_no_stale par db hs⟩
  · rcases hl : latest_version db with _ | l
    · exact Or.inl ⟨Or.inr (Or.inl ⟨s, rfl, rfl⟩), step_no_latest par db s hs hl⟩
    · by_cases hend : min (s + par - 1) l < s
      · refine Or.inl ⟨Or.inr (Or.inr ⟨s, l, rfl, rfl, hend⟩), ?_⟩
        unfold step
        rw [hs, hl]
        simp only [hend, if_true]
      · rcases hc : collect_stale_keys db s (min (s + par - 1) l + 1 - s)
          with e | keys
        · refine Or.inr (Or.inl ⟨s, l, e, rfl, rfl, hend, ?_, ?_⟩)
          · exact hc
          · unfold step
            rw [hs, hl]
            simp only [hend, if_false]
            rw [hc]
        · refine Or.inr (Or.inr ⟨s, l, keys, rfl, rfl, hend, ?_, ?_⟩)
          · exact hc
          · unfold step
            rw [hs, hl]
            simp only [hend, if_false]
            rw [hc]

/-! ## C2: step success postcondition -/

/-- C2: when the version range `[s, min (s + parallelism - 1) latest]` is
non-empty and every per-version classification succeeds, `step` issues a
single atomic write removing exactly the union over the range of the bogus
keys classified for each version (each tagged with its version) and
persisting the cursor `end_version + 1`, and reports progress even when the
merged list is empty. -/
theorem step_success_postcondition (par : Nat) (db : RocksDBWrapper)
    (s l : Nat) (B : Nat → List NodeKey)
    (hs : start_version_of db = some s) (hl : latest_version db = some l)
    (hsl : s ≤ l) (hp : 1 ≤ par)
    (hB : ∀ v, s ≤ v → v ≤ min (s + par - 1) l → run_for_version db v = .ok (B v)) :
    step par db =
      (.ok true,
        [⟨⟨min (s + par - 1) l + 1⟩,
          (List.range' s (min (s + par - 1) l + 1 - s)).flatMap (tagged B)⟩]) ∧
    stepApplied par db =
      (.ok true,
        repair_stale_keys db ⟨min (s + par - 1) l + 1⟩
          ((List.range' s (min (s + par - 1) l + 1 - s)).flatMap (tagged B))) := by
  have hcoll : collect_stale_keys db s (min (s + par - 1) l + 1 - s)
      = .ok ((List.range' s (min (s + par - 1) l + 1 - s)).flatMap (tagged B)) := by
    apply collect_stale_keys_eq
    intro v h1 h2
    exact hB v h1 (by omega)
  have hstep := step_progress_eq par db s l hs hl hsl hp
  rw [hcoll] at hstep
  refine ⟨hstep, ?_⟩
  unfold stepApplied
  rw [hstep]
  rfl

/-- The bogus keys of `sampleDB` at version 1 (paths `[2]` and `[3]`). -/
def sampleB : Nat → List NodeKey := fun _ => [⟨0, [2]⟩, ⟨0, [3]⟩]

/-- C2 witness: one step over `sampleDB` (range `[1, 1]`, parallelism 4)
issues the single write removing the two bogus keys of version 1 and
persisting cursor 2. -/
theorem step_success_postcondition_witness :
    start_version_of sampleDB = some 1 ∧
    latest_version sampleDB = some 1 ∧
    (1 : Nat) ≤ 1 ∧ (1 : Nat) ≤ 4 ∧
    (∀ v, 1 ≤ v → v ≤ min (1 + 4 - 1) 1 →
      run_for_version sampleDB v = .ok (sampleB v)) ∧
    step 4 sampleDB =
      (.ok true,
        [⟨⟨min (1 + 4 - 1) 1 + 1⟩,
          (List.range' 1 (min (1 + 4 - 1) 1 + 1 - 1)).flatMap (tagged sampleB)⟩]) ∧
    stepApplied 4 sampleDB =
      (.ok true,
        repair_stale_keys sampleDB ⟨min (1 + 4 - 1) 1 + 1⟩
          ((List.range' 1 (min (1 + 4 - 1) 1 + 1 - 1)).flatMap (tagged sampleB))) := by
  have hB : ∀ v, 1 ≤ v → v ≤ min (1 + 4 - 1) 1 →
      run_for_version sampleDB v = .ok (sampleB v) := by
    intro v h1 h2
    have hv : v = 1 := by
      have : min (1 + 4 - 1) 1 = 1 := by norm_num
      omega
    subst hv
    rfl
  obtain ⟨h1, h2⟩ := step_success_postcondition 4 sampleDB 1 1 sampleB rfl rfl
    (le_refl 1) (by norm_num) hB
  exact ⟨rfl, rfl, le_refl 1, by norm_num, hB, h1, h2⟩

/-! ## C3: cursor monotonicity and bound -/

/-- C3: after every step reporting progress, the persisted cursor is
`end_version + 1`: strictly greater than the previous cursor when one
existed, and at most `latest_version + 1` where
`latest_version = version_count - 1` from the manifest. -/
theorem repair_cursor_monotone (par : Nat) (db db' : RocksDBWrapper)
    (h : stepApplied par db = (.ok true, db')) :
    ∃ n m, db'.repair_data = some ⟨n⟩ ∧ db.manifest = some m ∧
      1 ≤ m.version_count ∧ n ≤ (m.version_count - 1) + 1 ∧
      (∀ c, db.repair_data = some c → c.next_version < n) := by
  unfold stepApplied at h
  rcases step_shape par db with ⟨_, hstep⟩ | ⟨s, l, e, _, _, _, _, hstep⟩ |
    ⟨s, l, keys, hs, hl, hend, _, hstep⟩ <;> rw [hstep] at h
  · simp at h
  · simp at h
  · obtain ⟨m, hm, hm1, hml⟩ := latest_version_inv db l hl
    rw [Prod.mk.injEq] at h
    refine ⟨min (s + par - 1) l + 1, m, ?_, hm, hm1, ?_, ?_⟩
    · rw [← h.2]
      rfl
    · have : min (s + par - 1) l ≤ l := min_le_right _ _
      omega
    · intro c hc
      have h1 : c.next_version ≤ s := start_version_of_cursor db s c hs hc
      have h2 : s ≤ min (s + par - 1) l := not_lt.mp hend
      omega

/-- The store after one progress-making step over `sampleDB`. -/
def sampleRepairedDB : RocksDBWrapper :=
  repair_stale_keys sampleDB ⟨2⟩ [⟨⟨0, [2]⟩, 1⟩, ⟨⟨0, [3]⟩, 1⟩]

/-- C3 witness: the progress-making step over `sampleDB` persists cursor 2,
strictly above the absent previous cursor and at most `latest + 1 = 2`. -/
theorem repair_cursor_monotone_witness :
    stepApplied 4 sampleDB = (.ok true, sampleRepairedDB) ∧
    ∃ n m, sampleRepairedDB.repair_data = some ⟨n⟩ ∧
      sampleDB.manifest = some m ∧ 1 ≤ m.version_count ∧
      n ≤ (m.version_count - 1) + 1 ∧
      (∀ c, sampleDB.repair_data = some c → c.next_version < n) :=
  ⟨rfl, repair_cursor_monotone 4 sampleDB sampleRepairedDB rfl⟩

/-! ## C4: fail-fast error atomicity -/

/-- C4: if the key-set read of some version in the (non-empty) batch range
fails — every earlier version in the range reading fine — `step` returns
that error and issues no store write: the stale-key index and the cursor are
exactly as before. -/
theorem step_error_atomicity (par : Nat) (db : RocksDBWrapper) (s l v : Nat)
    (e : StoreErr)
    (hs : start_version_of db = some s) (hl : latest_version db = some l)
    (hsl : s ≤ l) (hp : 1 ≤ par)
    (hv1 : s ≤ v) (hv2 : v ≤ min (s + par - 1) l)
    (herr : db.all_keys_for_version v = .error e)
    (hbefore : ∀ w, s ≤ w → w < v → ∃ vk, db.all_keys_for_version w = .ok vk) :
    step par db = (.error e, []) ∧ stepApplied par db = (.error e, db) := by
  have hc : collect_stale_keys db s (min (s + par - 1) l + 1 - s) = .error e :=
    collect_stale_keys_error db e (min (s + par - 1) l + 1 - s) s v hv1
      (by omega) herr hbefore
  have hstep := step_progress_eq par db s l hs hl hsl hp
  rw [hc] at hstep
  refine ⟨hstep, ?_⟩
  unfold stepApplied
  rw [hstep]
  rfl

/-- A store with one stale record at version 0 whose key-set reads fail. -/
def errorDB : RocksDBWrapper where
  staleRecords := [⟨⟨0, [7]⟩, 0⟩]
  repair_data := none
  manifest := some ⟨1⟩
  all_keys_for_version := fun _ => .error "RocksDB read failed"

/-- C4 witness: over `errorDB` (range `[0, 0]`, failing read at version 0)
the step returns the read error and leaves the store untouched. -/
theorem step_error_atomicity_witness :
    start_version_of errorDB = some 0 ∧
    latest_version errorDB = some 0 ∧
    errorDB.all_keys_for_version 0 = .error "RocksDB read failed" ∧
    step 1 errorDB = (.error "RocksDB read failed", []) ∧
    stepApplied 1 errorDB = (.error "RocksDB read failed", errorDB) := by
  have h := step_error_atomicity 1 errorDB 0 0 0 "RocksDB read failed" rfl rfl
    (le_refl 0) (le_refl 1) (le_refl 0) (Nat.zero_le _) rfl
    (fun w h1 h2 => absurd h2 (by omega))
  exact ⟨rfl, rfl, rfl, h.1, h.2⟩

/-! ## C5: no-op characterization -/

/-- When every key-set read in the window succeeds, the collection fold
succeeds. -/
theorem collect_stale_keys_isOk (db : RocksDBWrapper) :
    ∀ (n s : Nat),
      (∀ v, s ≤ v → v < s + n → ∃ vk, db.all_keys_for_version v = .ok vk) →
      ∃ keys, collect_stale_keys db s n = .ok keys
  | 0, s, _ => ⟨[], rfl⟩
  | n + 1, s, h => by
    obtain ⟨vk, hvk⟩ := h s (le_refl s) (by omega)
    obtain ⟨rest, hrest⟩ := collect_stale_keys_isOk db n (s + 1)
      (fun v h1 h2 => h v (by omega) (by omega))
    refine ⟨((stale_keys db s).filter
        (fun k => !(vk.valid_keys.contains k.nibbles))).map
          (fun key => ⟨key, s⟩) ++ rest, ?_⟩
    unfold collect_stale_keys
    rw [run_for_version_eq db s vk hvk, hrest]

/-- C5: `step` reports no progress (and writes nothing) exactly when no
version has stale records, or the manifest is absent or empty, or the start
version is past the latest version; in every other situation where all
key-set reads in the batch succeed it reports progress. -/
theorem step_noop_characterization (par : Nat) (db : RocksDBWrapper)
    (hp : 1 ≤ par) :
    (step par db = (.ok false, []) ↔
      start_version_of db = none ∨ latest_version db = none ∨
        ∃ s l, start_version_of db = some s ∧ latest_version db = some l ∧
          l < s) ∧
    (∀ s l, start_version_of db = some s → latest_version db = some l →
      s ≤ l →
      (∀ v, s ≤ v → v ≤ min (s + par - 1) l →
        ∃ vk, db.all_keys_for_version v = .ok vk) →
      ∃ w, step par db = (.ok true, [w])) := by
  constructor
  · constructor
    · intro h
      rcases step_shape par db with ⟨hcond, _⟩ | ⟨s, l, e, _, _, _, _, hstep⟩ |
        ⟨s, l, keys, _, _, _, _, hstep⟩
      · rcases hcond with h1 | ⟨s, h1, h2⟩ | ⟨s, l, h1, h2, h3⟩
        · exact Or.inl h1
        · exact Or.inr (Or.inl h2)
        · refine Or.inr (Or.inr ⟨s, l, h1, h2, ?_⟩)
          omega
      · rw [hstep] at h
        simp at h
      · rw [hstep] at h
        simp at h
    · intro h
      rcases h with h1 | h1 | ⟨s, l, h1, h2, h3⟩
      · exact step_no_stale par db h1
      · rcases hs : start_version_of db with _ | s
        · exact step_no_stale par db hs
        · exact step_no_latest par db s hs h1
      · exact step_empty_range par db s l h1 h2 h3
  · intro s l hs hl hsl hreads
    obtain ⟨keys, hc⟩ := collect_stale_keys_isOk db (min (s + par - 1) l + 1 - s) s
      (fun v h1 h2 => hreads v h1 (by omega))
    have hstep := step_progress_eq par db s l hs hl hsl hp
    rw [hc] at hstep
    exact ⟨_, hstep⟩

/-- C5 witness: `sampleDB` is in none of the three no-op situations, all its
reads succeed, and its step indeed reports progress; conversely the
caught-up store `sampleRepairedDB` (cursor 2 past latest 1) satisfies the
third situation and its step reports no progress. -/
theorem step_noop_characterization_witness :
    (step 4 sampleDB ≠ (.ok false, [])) ∧
    (∃ w, step 4 sampleDB = (.ok true, [w])) ∧
    (step 4 sampleRepairedDB = (.ok false, [])) := by
  have h1 := (step_noop_characterization 4 sampleDB (by norm_num)).1
  have h2 := (step_noop_characterization 4 sampleDB (by norm_num)).2 1 1 rfl rfl
    (le_refl 1) (fun v hv1 hv2 => by
      have hv : v = 1 := by
        have : min (1 + 4 - 1) 1 = 1 := by norm_num
        omega
      subst hv
      exact ⟨sampleVK, rfl⟩)
  have h3 := (step_noop_characterization 4 sampleRepairedDB (by norm_num)).1.mpr
    (Or.inr (Or.inr ⟨2, 1, rfl, rfl, by norm_num⟩))
  refine ⟨?_, h2, h3⟩
  intro hfalse
  rcases h1.mp hfalse with hbad | hbad | ⟨s, l, hbad1, hbad2, hbad3⟩
  · simp [start_version_of, min_stale_key_version, sampleDB] at hbad
  · simp [latest_version, sampleDB] at hbad
  · rw [show start_version_of sampleDB = some 1 from rfl] at hbad1
    rw [show latest_version sampleDB = some 1 from rfl] at hbad2
    cases hbad1
    cases hbad2
    omega

/-! ## C6: idempotence -/

/-- C6: a second `step` over an already-cleaned range (persisted cursor past
the latest version, no new versions) reports no progress, never errors and
leaves the store unchanged; and re-running single-version classification on
an already-repaired version yields an empty bogus-key list. -/
theorem step_idempotent :
    (∀ (par : Nat) (db : RocksDBWrapper) (c : StaleKeysRepairData)
        (m : Manifest), db.repair_data = some c → db.manifest = some m →
      1 ≤ m.version_count → m.version_count ≤ c.next_version →
      step par db = (.ok false, []) ∧ stepApplied par db = (.ok false, db)) ∧
    (∀ (db : RocksDBWrapper) (v n : Nat) (vk : VersionKeySets)
        (bog : List NodeKey) (R : List StaleNodeKey),
      db.all_keys_for_version v = .ok vk →
      run_for_version db v = .ok bog →
      (∀ k, k ∈ bog → (⟨k, v⟩ : StaleNodeKey) ∈ R) →
      run_for_version (repair_stale_keys db ⟨n⟩ R) v = .ok []) := by
  constructor
  · intro par db c m hc hm hm1 hcursor
    have hstep : step par db = (.ok false, []) := by
      have hl : latest_version db = some (m.version_count - 1) := by
        unfold latest_version
        rw [hm]
        dsimp only
        rw [if_neg (by omega)]
      rcases hs : start_version_of db with _ | s
      · exact step_no_stale par db hs
      · have h1 : c.next_version ≤ s := start_version_of_cursor db s c hs hc
        exact step_empty_range par db s (m.version_count - 1) hs hl (by omega)
    refine ⟨hstep, ?_⟩
    unfold stepApplied
    rw [hstep]
    rfl
  · intro db v n vk bog R hvk hrun hR
    have hvk' : (repair_stale_keys db ⟨n⟩ R).all_keys_for_version v = .ok vk := hvk
    rw [run_for_version_eq _ v vk hvk']
    rw [run_for_version_eq db v vk hvk] at hrun
    have hbog : bog = (stale_keys db v).filter
        (fun k => !(vk.valid_keys.contains k.nibbles)) :=
      (Except.ok.injEq _ _ ▸ hrun.symm :)
    congr 1
    rw [List.filter_eq_nil_iff]
    intro k hk
    obtain ⟨r, hr, rfl⟩ := List.mem_map.mp hk
    rw [List.mem_filter] at hr
    obtain ⟨hr1, hr2⟩ := hr
    unfold repair_stale_keys at hr1
    rw [List.mem_filter] at hr1
    obtain ⟨hmem, hsurv⟩ := hr1
    intro hbad
    have hkv : r.replaced_in_version = v := by
      simpa using hr2
    have hks : r.key ∈ stale_keys db v := by
      unfold stale_keys
      exact List.mem_map.mpr ⟨r, List.mem_filter.mpr ⟨hmem, hr2⟩, rfl⟩
    have hkbog : r.key ∈ bog := by
      rw [hbog]
      exact List.mem_filter.mpr ⟨hks, hbad⟩
    have hrR : r ∈ R := by
      have h5 := hR r.key hkbog
      have heta : r = ⟨r.key, v⟩ := by rw [← hkv]
      rw [heta]
      exact h5
    simp at hsurv
    exact hsurv hrR

/-- `sampleDB` with the caught-up cursor 2 persisted. -/
def caughtUpDB : RocksDBWrapper :=
  { sampleDB with repair_data := some ⟨2⟩ }

/-- C6 witness: a step over the caught-up store (cursor 2, two committed
versions) is a no-op, and re-classifying version 1 of `sampleDB` after its
two bogus keys were removed yields the empty list. -/
theorem step_idempotent_witness :
    caughtUpDB.repair_data = some ⟨2⟩ ∧
    caughtUpDB.manifest = some ⟨2⟩ ∧
    step 4 caughtUpDB = (.ok false, []) ∧
    stepApplied 4 caughtUpDB = (.ok false, caughtUpDB) ∧
    run_for_version sampleDB 1 = .ok [⟨0, [2]⟩, ⟨0, [3]⟩] ∧
    run_for_version
      (repair_stale_keys sampleDB ⟨2⟩ [⟨⟨0, [2]⟩, 1⟩, ⟨⟨0, [3]⟩, 1⟩]) 1
      = .ok [] := by
  have h1 := step_idempotent.1 4 caughtUpDB ⟨2⟩ ⟨2⟩ rfl rfl (by norm_num)
    (by norm_num)
  have h2 := step_idempotent.2 sampleDB 1 2 sampleVK [⟨0, [2]⟩, ⟨0, [3]⟩]
    [⟨⟨0, [2]⟩, 1⟩, ⟨⟨0, [3]⟩, 1⟩] rfl rfl (by decide)
  exact ⟨rfl, rfl, h1.1, h1.2, rfl, h2⟩

/-! ## C10: removed keys stay within the batch range -/

/-- C10: every stale-node key `step` passes to the atomic removal is tagged
with a version inside `[start_version, end_version]`, hence at most
`latest_version`; and when the minimum stale-key version exceeds the latest
committed version, `step` removes nothing and reports no progress, leaving
such records untouched. -/
theorem removed_versions_bounded (par : Nat) (db : RocksDBWrapper) :
    (∀ w, w ∈ (step par db).2 → ∀ r, r ∈ w.removed_keys →
      ∃ s l, start_version_of db = some s ∧ latest_version db = some l ∧
        s ≤ r.replaced_in_version ∧
        r.replaced_in_version ≤ min (s + par - 1) l ∧
        r.replaced_in_version ≤ l) ∧
    (∀ mv l, min_stale_key_version db = some mv → latest_version db = some l →
      l < mv → step par db = (.ok false, [])) := by
  constructor
  · intro w hw r hr
    rcases step_shape par db with ⟨_, hstep⟩ | ⟨s, l, e, _, _, _, _, hstep⟩ |
      ⟨s, l, keys, hs, hl, hend, hc, hstep⟩ <;> rw [hstep] at hw
    · cases hw
    · cases hw
    · rw [List.mem_singleton] at hw
      subst hw
      have hb := collect_stale_keys_versions db
        (min (s + par - 1) l + 1 - s) s keys hc r hr
      have h2 : s ≤ min (s + par - 1) l := not_lt.mp hend
      refine ⟨s, l, hs, hl, hb.1, by omega, ?_⟩
      have : min (s + par - 1) l ≤ l := min_le_right _ _
      omega
  · intro mv l hm hl hlt
    rcases hs : start_version_of db with _ | s
    · exact step_no_stale par db hs
    · have h1 : mv ≤ s := start_version_of_min db s mv hs hm
      exact step_empty_range par db s l hs hl (by omega)

/-- A store with a stale record at version 7, beyond its single committed
version. -/
def futureStaleDB : RocksDBWrapper where
  staleRecords := [⟨⟨0, [5]⟩, 7⟩]
  repair_data := none
  manifest := some ⟨1⟩
  all_keys_for_version := fun _ => .ok ⟨[], []⟩

/-- C10 witness: the version bound applied to the progress-making step over
`sampleDB`, and the no-progress conclusion on `futureStaleDB`, whose only
stale record sits at version 7 past latest version 0. -/
theorem removed_versions_bounded_witness :
    (∀ w, w ∈ (step 4 sampleDB).2 → ∀ r, r ∈ w.removed_keys →
      ∃ s l, start_version_of sampleDB = some s ∧
        latest_version sampleDB = some l ∧
        s ≤ r.replaced_in_version ∧
        r.replaced_in_version ≤ min (s + 4 - 1) l ∧
        r.replaced_in_version ≤ l) ∧
    min_stale_key_version futureStaleDB = some 7 ∧
    latest_version futureStaleDB = some 0 ∧
    step 4 futureStaleDB = (.ok false, []) :=
  ⟨(removed_versions_bounded 4 sampleDB).1, rfl, rfl,
    (removed_versions_bounded 4 futureStaleDB).2 7 0 rfl rfl (by norm_num)⟩

/-! ## Lemmas about the main loop trace -/

/-- Head decomposition of step iteration: one successful step followed by
`n` more is `n` steps from the successor state. -/
theorem steps_to_head (par : Nat) (db db' : RocksDBWrapper) (f : Bool)
    (h : stepApplied par db = (.ok f, db')) :
    ∀ n, steps_to par db (n + 1) = steps_to par db' n
  | 0 => by
    show (match stepApplied par db with
      | (.error _, _) => none
      | (.ok _, d') => some d') = some db'
    rw [h]
  | n + 1 => by
    show (match steps_to par db (n + 1) with
      | none => none
      | some d =>
        match stepApplied par d with
        | (.error _, _) => none
        | (.ok _, d') => some d') = steps_to par db' (n + 1)
    rw [steps_to_head par db db' f h n]
    rfl

/-- A failing first step poisons every non-zero iteration count. -/
theorem steps_to_head_error (par : Nat) (db : RocksDBWrapper) (e : StoreErr)
    (h : (stepApplied par db).1 = .error e) :
    ∀ n, steps_to par db (n + 1) = none
  | 0 => by
    rcases hsa : stepApplied par db with ⟨res, d⟩
    rw [hsa] at h
    have hres : res = .error e := h
    show (match stepApplied par db with
      | (.error _, _) => none
      | (.ok _, d') => some d') = none
    rw [hsa, hres]
  | n + 1 => by
    show (match steps_to par db (n + 1) with
      | none => none
      | some d =>
        match stepApplied par d with
        | (.error _, _) => none
        | (.ok _, d') => some d') = none
    rw [steps_to_head_error par db e h n]

/-- `run` returns on cancellation exactly when the abort signal is first
observed at an inter-step wait within the fuel budget, every earlier step
completed successfully, and the returned store is the one after exactly
those complete steps. -/
theorem run_ok_iff (par : Nat) :
    ∀ (fuel : Nat) (abort : Nat → Bool) (db dbf : RocksDBWrapper) (n : Nat),
      run par abort db fuel = some (.ok dbf, n) ↔
        n < fuel ∧ abort n = true ∧ (∀ j, j < n → abort j = false) ∧
          steps_to par db n = some dbf
  | 0, abort, db, dbf, n => by
    constructor
    · intro h
      exact Option.noConfusion h
    · rintro ⟨h1, -, -, -⟩
      exact absurd h1 (by omega)
  | fuel + 1, abort, db, dbf, n => by
    unfold run
    by_cases h0 : abort 0 = true
    · rw [if_pos h0]
      constructor
      · intro h
        simp only [Option.some.injEq, Prod.mk.injEq, Except.ok.injEq] at h
        obtain ⟨rfl, rfl⟩ := h
        exact ⟨by omega, h0, fun j hj => absurd hj (by omega), rfl⟩
      · rintro ⟨h1, h2, h3, h4⟩
        cases n with
        | zero =>
          injection h4 with h5
          rw [h5]
        | succ n => exact absurd h0 (by simp [h3 0 (Nat.succ_pos n)])
    · rw [if_neg h0]
      have h0' : abort 0 = false := by simpa using h0
      rcases hsa : stepApplied par db with ⟨res, d⟩
      rcases res with e | flag <;> dsimp only
      · constructor
        · intro h
          simp at h
        · rintro ⟨h1, h2, h3, h4⟩
          cases n with
          | zero => exact absurd h2 h0
          | succ n =>
            rw [steps_to_head_error par db e (by rw [hsa]) n] at h4
            exact Option.noConfusion h4
      · rcases hrun : run par (fun i => abort (i + 1)) d fuel with _ | ⟨res2, m⟩ <;>
          dsimp only
        · constructor
          · intro h
            exact Option.noConfusion h
          · rintro ⟨h1, h2, h3, h4⟩
            cases n with
            | zero => exact absurd h2 h0
            | succ n =>
              have hinner : run par (fun i => abort (i + 1)) d fuel
                  = some (.ok dbf, n) :=
                (run_ok_iff par fuel (fun i => abort (i + 1)) d dbf n).mpr
                  ⟨by omega, h2, fun j hj => h3 (j + 1) (by omega), by
                    rw [← steps_to_head par db d flag hsa n]
                    exact h4⟩
              rw [hinner] at hrun
              exact Option.noConfusion hrun
        · constructor
          · intro h
            simp only [Option.some.injEq, Prod.mk.injEq] at h
            obtain ⟨rfl, rfl⟩ := h
            obtain ⟨hm, ha, hb, hc⟩ :=
              (run_ok_iff par fuel (fun i => abort (i + 1)) d dbf m).mp hrun
            refine ⟨by omega, ha, ?_, ?_⟩
            · intro j hj
              cases j with
              | zero => exact h0'
              | succ j => exact hb j (by omega)
            · rw [steps_to_head par db d flag hsa m]
              exact hc
          · rintro ⟨h1, h2, h3, h4⟩
            cases n with
            | zero => exact absurd h2 h0
            | succ n =>
              have hinner : run par (fun i => abort (i + 1)) d fuel
                  = some (.ok dbf, n) :=
                (run_ok_iff par fuel (fun i => abort (i + 1)) d dbf n).mpr
                  ⟨by omega, h2, fun j hj => h3 (j + 1) (by omega), by
                    rw [← steps_to_head par db d flag hsa n]
                    exact h4⟩
              rw [hrun] at hinner
              simp only [Option.some.injEq, Prod.mk.injEq] at hinner
              obtain ⟨rfl, rfl⟩ := hinner
              rfl

/-- `run` returns an error exactly when some step fails within the fuel
budget before any abort signal is observed: the first failing step's error
is propagated, after all earlier steps completed successfully. -/
theorem run_error_iff (par : Nat) :
    ∀ (fuel : Nat) (abort : Nat → Bool) (db : RocksDBWrapper) (e : StoreErr)
      (n : Nat),
      run par abort db fuel = some (.error e, n) ↔
        n < fuel ∧ (∀ j, j ≤ n → abort j = false) ∧
          ∃ d, steps_to par db n = some d ∧ (stepApplied par d).1 = .error e
  | 0, abort, db, e, n => by
    constructor
    · intro h
      exact Option.noConfusion h
    · rintro ⟨h1, -, -⟩
      exact absurd h1 (by omega)
  | fuel + 1, abort, db, e, n => by
    unfold run
    by_cases h0 : abort 0 = true
    · rw [if_pos h0]
      constructor
      · intro h
        simp at h
      · rintro ⟨h1, h2, -⟩
        exact absurd h0 (by simp [h2 0 (Nat.zero_le n)])
    · rw [if_neg h0]
      have h0' : abort 0 = false := by simpa using h0
      rcases hsa : stepApplied par db with ⟨res, d⟩
      rcases res with e1 | flag <;> dsimp only
      · constructor
        · intro h
          simp only [Option.some.injEq, Prod.mk.injEq, Except.error.injEq] at h
          obtain ⟨rfl, rfl⟩ := h
          refine ⟨by omega, ?_, db, rfl, by rw [hsa]⟩
          intro j hj
          have hj0 : j = 0 := by omega
          rw [hj0]
          exact h0'
        · rintro ⟨h1, h2, d2, hd2, herr2⟩
          cases n with
          | zero =>
            injection hd2 with h5
            rw [← h5, hsa] at herr2
            have h6 : Except.error (α := Bool) e1 = .error e := herr2
            rw [Except.error.injEq] at h6
            rw [h6]
          | succ n =>
            rw [steps_to_head_error par db e1 (by rw [hsa]) n] at hd2
            exact Option.noConfusion hd2
      · rcases hrun : run par (fun i => abort (i + 1)) d fuel with _ | ⟨res2, m⟩ <;>
          dsimp only
        · constructor
          · intro h
            exact Option.noConfusion h
          · rintro ⟨h1, h2, d2, hd2, herr2⟩
            cases n with
            | zero =>
              injection hd2 with h5
              rw [← h5, hsa] at herr2
              have h6 : Except.ok (ε := StoreErr) flag = .error e := herr2
              exact Except.noConfusion h6
            | succ n =>
              have hinner :=
                (run_error_iff par fuel (fun i => abort (i + 1)) d e n).mpr
                  ⟨by omega, fun j hj => h2 (j + 1) (by omega), d2, by
                    rw [← steps_to_head par db d flag hsa n]
                    exact hd2, herr2⟩
              rw [hinner] at hrun
              exact Option.noConfusion hrun
        · constructor
          · intro h
            simp only [Option.some.injEq, Prod.mk.injEq] at h
            obtain ⟨rfl, rfl⟩ := h
            obtain ⟨hm, ha, d2, hd2, herr2⟩ :=
              (run_error_iff par fuel (fun i => abort (i + 1)) d e m).mp hrun
            refine ⟨by omega, ?_, d2, ?_, herr2⟩
            · intro j hj
              cases j with
              | zero => exact h0'
              | succ j => exact ha j (by omega)
            · rw [steps_to_head par db d flag hsa m]
              exact hd2
          · rintro ⟨h1, h2, d2, hd2, herr2⟩
            cases n with
            | zero =>
              injection hd2 with h5
              rw [← h5, hsa] at herr2
              have h6 : Except.ok (ε := StoreErr) flag = .error e := herr2
              exact Except.noConfusion h6
            | succ n =>
              have hinner :=
                (run_error_iff par fuel (fun i => abort (i + 1)) d e n).mpr
                  ⟨by omega, fun j hj => h2 (j + 1) (by omega), d2, by
                    rw [← steps_to_head par db d flag hsa n]
                    exact hd2, herr2⟩
              rw [hrun] at hinner
              simp only [Option.some.injEq, Prod.mk.injEq] at hinner
              obtain ⟨rfl, rfl⟩ := hinner
              rfl

/-- `run` is still looping exactly when, at every iteration within the fuel
budget, no abort signal is observed and the step succeeds. -/
theorem run_none_iff (par : Nat) :
    ∀ (fuel : Nat) (abort : Nat → Bool) (db : RocksDBWrapper),
      run par abort db fuel = none ↔
        ∀ i, i < fuel → (abort i = false ∧ steps_to par db (i + 1) ≠ none)
  | 0, abort, db => by
    constructor
    · intro _ i hi
      exact absurd hi (by omega)
    · intro _
      rfl
  | fuel + 1, abort, db => by
    unfold run
    by_cases h0 : abort 0 = true
    · rw [if_pos h0]
      constructor
      · intro h
        exact Option.noConfusion h
      · intro h
        exact absurd h0 (by simp [(h 0 (by omega)).1])
    · rw [if_neg h0]
      have h0' : abort 0 = false := by simpa using h0
      rcases hsa : stepApplied par db with ⟨res, d⟩
      rcases res with e1 | flag <;> dsimp only
      · constructor
        · intro h
          exact Option.noConfusion h
        · intro h
          have h1 := (h 0 (by omega)).2
          rw [steps_to_head_error par db e1 (by rw [hsa]) 0] at h1
          exact absurd rfl h1
      · rcases hrun : run par (fun i => abort (i + 1)) d fuel with _ | ⟨res2, m⟩ <;>
          dsimp only
        · constructor
          · intro _
            intro i hi
            have hinner :=
              (run_none_iff par fuel (fun i => abort (i + 1)) d).mp hrun
            cases i with
            | zero =>
              refine ⟨h0', ?_⟩
              rw [steps_to_head par db d flag hsa 0]
              exact fun hc => Option.noConfusion hc
            | succ i =>
              obtain ⟨ha, hb⟩ := hinner i (by omega)
              refine ⟨ha, ?_⟩
              rw [steps_to_head par db d flag hsa (i + 1)]
              exact hb
          · intro _
            rfl
        · constructor
          · intro h
            exact Option.noConfusion h
          · intro h
            have hinner :=
              (run_none_iff par fuel (fun i => abort (i + 1)) d).mpr
                (fun i hi => by
                  obtain ⟨ha, hb⟩ := h (i + 1) (by omega)
                  refine ⟨ha, ?_⟩
                  rw [← steps_to_head par db d flag hsa (i + 1)]
                  exact hb)
            rw [hinner] at hrun
            exact Option.noConfusion hrun

/-! ## C8: cancellation is cooperative and inter-step only -/

/-- C8: when `run` returns on cancellation at iteration `n`, the abort
signal was observed at the inter-step wait `n` and at no earlier wait, every
one of the `n` steps before it ran to completion successfully, and the store
at return is exactly the state after those `n` complete steps — so no store
operation occurs after the signal is observed and no step is interrupted
mid-flight. -/
theorem run_cancellation_between_steps (par fuel n : Nat) (abort : Nat → Bool)
    (db dbf : RocksDBWrapper)
    (h : run par abort db fuel = some (.ok dbf, n)) :
    abort n = true ∧ (∀ j, j < n → abort j = false) ∧
      steps_to par db n = some dbf := by
  obtain ⟨-, h2, h3, h4⟩ := (run_ok_iff par fuel abort db dbf n).mp h
  exact ⟨h2, h3, h4⟩

/-- C8 witness: with the abort signal raised at wait 1, `run` over
`sampleDB` performs exactly the one repair step and returns the repaired
store at iteration 1. -/
theorem run_cancellation_between_steps_witness :
    run 4 (fun i => i == 1) sampleDB 3 = some (.ok sampleRepairedDB, 1) ∧
    ((fun i : Nat => i == 1) 1 = true ∧
      (∀ j, j < 1 → (fun i : Nat => i == 1) j = false) ∧
      steps_to 4 sampleDB 1 = some sampleRepairedDB) :=
  ⟨rfl, run_cancellation_between_steps 4 3 1 (fun i => i == 1) sampleDB
    sampleRepairedDB rfl⟩

/-! ## C9: run return characterization -/

/-- C9: `run` returns `Ok` iff the abort signal is observed (at some
inter-step wait, all prior steps having succeeded); it returns an error iff
some step fails with that store error before any abort is observed, the
error of the first failing step propagating with no internal retry; and it
returns for no other reason — with no abort and no failing step it keeps
looping. -/
theorem run_return_characterization (par fuel : Nat) (abort : Nat → Bool)
    (db : RocksDBWrapper) :
    (∀ dbf n, run par abort db fuel = some (.ok dbf, n) ↔
      (n < fuel ∧ abort n = true ∧ (∀ j, j < n → abort j = false) ∧
        steps_to par db n = some dbf)) ∧
    (∀ e n, run par abort db fuel = some (.error e, n) ↔
      (n < fuel ∧ (∀ j, j ≤ n → abort j = false) ∧
        ∃ d, steps_to par db n = some d ∧ (stepApplied par d).1 = .error e)) ∧
    (run par abort db fuel = none ↔
      ∀ i, i < fuel → (abort i = false ∧ steps_to par db (i + 1) ≠ none)) :=
  ⟨fun dbf n => run_ok_iff par fuel abort db dbf n,
    fun e n => run_error_iff par fuel abort db e n,
    run_none_iff par fuel abort db⟩

end StaleKeysRepair
